import Mathlib

/-!
Verification model of the document_word_search repository.

Texts are modelled as `List Char`.  Python regex classes are modelled at the
ASCII level: `\s` is the ASCII whitespace set, `\w` is `[A-Za-z0-9_]`, and
`re.IGNORECASE` comparison is modelled by lower-casing the ASCII letters
`A`-`Z` (Python additionally folds non-ASCII characters; no claim here
depends on non-ASCII case folding).  Match offsets are natural numbers,
matching the values produced by `re.finditer`.
-/

namespace DocSearch

/-- The ASCII whitespace characters matched by the regex class `\s`
(space, tab, newline, carriage return, vertical tab, form feed). -/
def isPyWs (c : Char) : Bool :=
  c.toNat == 32 || c.toNat == 9 || c.toNat == 10 || c.toNat == 13 ||
  c.toNat == 11 || c.toNat == 12

/-- Characters matched by the regex class `[-\s]` used to join keyword
tokens in `_build_fuzzy_pattern` / `_search_text` (hyphen is 45). -/
def isSepHS (c : Char) : Bool := c.toNat == 45 || isPyWs c

/-- Characters that `normalize_keyword` treats as separators: `[-_/]` are
substituted by spaces and whitespace is collapsed, so the keyword's word
tokens are the maximal runs of characters outside this set
(underscore is 95, slash is 47). -/
def isTokSepB (c : Char) : Bool := isSepHS c || c.toNat == 95 || c.toNat == 47

/-- Word characters for the regex `\b` assertion (`\w` = `[A-Za-z0-9_]`,
ASCII model). -/
def isWordCh (c : Char) : Bool :=
  (97 ≤ c.toNat && c.toNat ≤ 122) || (65 ≤ c.toNat && c.toNat ≤ 90) ||
  (48 ≤ c.toNat && c.toNat ≤ 57) || c.toNat == 95

/-- Sentence-terminal punctuation of the context heuristics: `[.!?]`
(codes 46, 33, 63). -/
def isPunct (c : Char) : Bool := c.toNat == 46 || c.toNat == 33 || c.toNat == 63

/-- Case-folding key of a character under `re.IGNORECASE` (ASCII model):
the code point, with `A`-`Z` mapped onto `a`-`z`. -/
def lowerKey (c : Char) : Nat :=
  if 65 ≤ c.toNat ∧ c.toNat ≤ 90 then c.toNat + 32 else c.toNat

/-- Case-insensitive character comparison used by the compiled pattern. -/
def chEq (a b : Char) : Bool := lowerKey a == lowerKey b

/-- Python slice `t[a:b]` for nonnegative bounds (both ends clamped). -/
def pySliceNat (t : List Char) (a b : Nat) : List Char := (t.take b).drop a

/-- Clamp a Python slice index (which may be negative, counting from the
end) to an absolute position in a list of length `n`. -/
def pyIdx (n : Nat) (i : Int) : Nat :=
  if i < 0 then ((n : Int) + i).toNat else min i.toNat n

/-- Python slice `t[a:b]` with full index semantics. -/
def pySliceInt (t : List Char) (a b : Int) : List Char :=
  (t.take (pyIdx t.length b)).drop (pyIdx t.length a)

/-- Python `str.strip()` (ASCII whitespace model). -/
def stripList (t : List Char) : List Char :=
  ((t.dropWhile isPyWs).reverse.dropWhile isPyWs).reverse

/-- `os.path.basename` / `Path(p).name`: the last `/`-separated component. -/
def basename (s : String) : String := (s.splitOn "/").getLastD s

/-- `Config.CHARS_PER_PAGE_ESTIMATE`. -/
def charsPerPageEstimate : Nat := 3000

/-- `Config.SENTENCES_BEFORE`. -/
def sentencesBefore : Nat := 2

/-- `Config.SENTENCES_AFTER`. -/
def sentencesAfter : Nat := 2

/-- `Config.MAX_SENTENCES_TO_MERGE`. -/
def maxSentencesToMerge : Nat := 5

/-- The word tokens of a keyword: `normalize_keyword(keyword).split()`.
`normalize_keyword` substitutes every `[-_/]` by a space, collapses
whitespace and strips; `split()` then splits on whitespace runs.  The
composition returns exactly the maximal runs of non-separator characters,
which is what this function computes. -/
def splitTokensF : Nat → List Char → List (List Char)
  | 0, _ => []
  | _ + 1, [] => []
  | fuel + 1, c :: rest =>
    if isTokSepB c then splitTokensF fuel rest
    else (c :: rest.takeWhile (fun x => !isTokSepB x)) ::
      splitTokensF fuel (rest.dropWhile (fun x => !isTokSepB x))

/-- The word tokens of a keyword (the fuel is always sufficient since
every step strictly shortens the list). -/
def splitTokens (k : List Char) : List (List Char) :=
  splitTokensF (k.length + 1) k

/-- A keyword with its hyphens replaced by spaces. -/
def hyToSpace (K : List Char) : List Char :=
  K.map (fun c => if c = '-' then ' ' else c)

/-- A keyword with its hyphens removed entirely. -/
def rmHyphens (K : List Char) : List Char :=
  K.filter (fun c => decide (c ≠ '-'))

/-- `KV K S` relates a keyword to one of the textual variants the fuzzy
pattern is meant to find: each token character is replaced by a
case-variant, each `[-\s]` separator by a `[-\s]` separator, and hyphens
may be dropped.  The case-insensitive literal keyword, the
hyphens-to-spaces variant and the hyphens-removed variant all satisfy it
(for keywords free of `_` and `/`). -/
inductive KV : List Char → List Char → Prop where
  | nil : KV [] []
  | tok {c d : Char} {k s : List Char} : isTokSepB c = false →
      lowerKey d = lowerKey c → KV k s → KV (c :: k) (d :: s)
  | sep {c d : Char} {k s : List Char} : isSepHS c = true →
      isSepHS d = true → KV k s → KV (c :: k) (d :: s)
  | del {k s : List Char} : KV k s → KV ('-' :: k) s

/-- Match a literal pattern word (case-insensitively) against a prefix of
the text, returning the remaining text on success. -/
def matchLitRest : List Char → List Char → Option (List Char)
  | [], t => some t
  | _ :: _, [] => none
  | a :: ps, b :: ts => if chEq a b then matchLitRest ps ts else none

/-- Length of the maximal run of `[-\s]` characters at the head of the
text (the greedy `[-\s]*` joiner). -/
def sepPrefixLen (t : List Char) : Nat := (t.takeWhile isSepHS).length

/-- Deterministic matcher for the core of the fuzzy pattern
`w1[-\s]*w2[-\s]*...wn` at the head of `t`, returning the number of
characters consumed through the last word (the plural suffix is handled
separately).  Because the pattern words contain no `[-\s]` characters,
consuming the maximal separator run is equivalent to the backtracking
regex semantics. -/
def matchCoreLen : List (List Char) → List Char → Option Nat
  | [], _ => some 0
  | w :: ws, t =>
    match matchLitRest w t with
    | none => none
    | some r =>
      match ws with
      | [] => some w.length
      | _ :: _ =>
        let k := sepPrefixLen r
        match matchCoreLen ws (r.drop k) with
        | none => none
        | some l => some (w.length + k + l)

/-- Whether the pattern word `pre` matches (case-insensitively) a prefix
of `t`. -/
def startsWithI (pre t : List Char) : Bool := (matchLitRest pre t).isSome

/-- Whether the character at absolute index `i` of `T` is a word
character (out-of-range counts as non-word, as at the ends of the text). -/
def wordAt (T : List Char) (i : Nat) : Bool :=
  match T.drop i with
  | c :: _ => isWordCh c
  | [] => false

/-- The regex `\b` assertion at absolute position `p` of `T`. -/
def boundaryAt (T : List Char) (p : Nat) : Bool :=
  (decide (0 < p) && wordAt T (p - 1)) != wordAt T p

/-- The lengths the greedy plural suffix `(?:e?s)?` can consume at
position `q` of `T`, in the regex backtracking preference order
("es", then "s", then nothing). -/
def sufCands (T : List Char) (q : Nat) : List Nat :=
  (if startsWithI ['e', 's'] (T.drop q) then [2] else []) ++
  (if startsWithI ['s'] (T.drop q) then [1] else []) ++ [0]

/-- Choose the suffix length: the first candidate in preference order
that (when matching whole words) is followed by a `\b` boundary. -/
def sufChoose (ww : Bool) (T : List Char) (q : Nat) : Option Nat :=
  (sufCands T q).find? (fun c => !ww || boundaryAt T (q + c))

/-- Attempt to match the full fuzzy pattern of `_search_text`
(`\b`? + words joined by `[-\s]*` + `(?:e?s)?` + `\b`?) at position `p`
of `T`, returning the match length. -/
def tryMatchAt (ws : List (List Char)) (ww : Bool) (T : List Char) (p : Nat) :
    Option Nat :=
  if ww && !boundaryAt T p then none
  else
    match matchCoreLen ws (T.drop p) with
    | none => none
    | some core =>
      match ws with
      | [] => if ww && !boundaryAt T (p + core) then none else some core
      | _ :: _ => (sufChoose ww T (p + core)).map (fun c => core + c)

/-- `re.finditer` scan: left-to-right, non-overlapping; an empty match
advances the scan position by one, as Python does. -/
def findMatchesGo (ws : List (List Char)) (ww : Bool) (T : List Char) :
    Nat → Nat → List (Nat × Nat)
  | _, 0 => []
  | p, fuel + 1 =>
    if T.length < p then []
    else
      match tryMatchAt ws ww T p with
      | some l =>
        if l = 0 then (p, 0) :: findMatchesGo ws ww T (p + 1) fuel
        else (p, l) :: findMatchesGo ws ww T (p + l) fuel
      | none => findMatchesGo ws ww T (p + 1) fuel

/-- All matches `(start, length)` of the fuzzy pattern in `T`. -/
def findMatches (ws : List (List Char)) (ww : Bool) (T : List Char) :
    List (Nat × Nat) :=
  findMatchesGo ws ww T 0 (T.length + 1)

/-- One match of the sentence-boundary pattern `[.!?]+[\s]+` as a
`(start, end)` pair; `finditer` over this pattern, scanning with greedy
maximal runs (the pattern admits no other successful splits). -/
def sentBoundsGo : Nat → List Char → Nat → List (Nat × Nat)
  | 0, _, _ => []
  | _ + 1, [], _ => []
  | fuel + 1, c :: rest, i =>
    if isPunct c then
      let p := 1 + (rest.takeWhile isPunct).length
      let t2 := rest.drop (p - 1)
      let w := (t2.takeWhile isPyWs).length
      if w = 0 then sentBoundsGo fuel rest (i + 1)
      else (i, i + p + w) :: sentBoundsGo fuel (t2.drop w) (i + p + w)
    else sentBoundsGo fuel rest (i + 1)

/-- All `(start, end)` spans of `re.finditer(r'[.!?]+[\s]+', text)`. -/
def sentBounds (t : List Char) : List (Nat × Nat) :=
  sentBoundsGo (t.length + 1) t 0

/-- `count_sentences_between` from `utils/helpers.py` (re.findall count of
the sentence pattern between two positions, with its safety caps). -/
def countSentencesBetween (text : List Char) (pos1 pos2 : Nat) : Nat :=
  let p1 := min pos1 pos2
  let p2 := max pos1 pos2
  if 10000 < p2 - p1 then 100
  else min (sentBounds (pySliceNat text p1 p2)).length 100

/-- Bounds-check fallback of `create_sentence_context` (the first early
return, taken for empty text or an out-of-range span). -/
def cscFallback (text : List Char) (ms me : Nat) : List Char × Nat × Nat :=
  (pySliceNat text (ms - 100) (min (me + 100) text.length), 100, 120)

/-- Long-text fallback of `create_sentence_context`: a fixed ±300
character window. -/
def cscLong (text : List Char) (ms me : Nat) : List Char × Nat × Nat :=
  let start := ms - 300
  let e := min text.length (me + 300)
  (pySliceNat text start e, ms - start, me - start)

/-- Final clamping of the relative offsets in the sentence path of
`create_sentence_context`: `rel_start = max(0, min(rel_start, len(ctx)))`
and `rel_end = max(rel_start, min(rel_end, len(ctx)))`. -/
def finishClamp (ctx : List Char) (start ms me : Nat) : List Char × Nat × Nat :=
  let rs : Int := (ms : Int) - (start : Int)
  let re' : Int := (me : Int) - (start : Int)
  let rs2 : Nat := (min rs (ctx.length : Int)).toNat
  let re2 : Nat := max rs2 (min re' (ctx.length : Int)).toNat
  (ctx, rs2, re2)

/-- The context-length cap of the sentence path: when the sliced context
exceeds 2000 characters, re-center a 2000-character window on the match
midpoint (`start` is advanced by the inner slice's start). -/
def cscTrunc (ctx : List Char) (start ms me : Nat) : List Char × Nat :=
  if 2000 < ctx.length then
    let mid : Int := (((ms + me) / 2 : Nat) : Int) - (start : Int)
    let ctxStart : Nat := (mid - 1000).toNat
    let ctxEnd : Int := min (ctx.length : Int) (mid + 1000)
    (pySliceInt ctx (ctxStart : Int) ctxEnd, start + ctxStart)
  else (ctx, start)

/-- Sentence-boundary path of `create_sentence_context` (the body of its
`try` block; every operation in it is total, so the `except` fallback is
unreachable in the model). -/
def cscSent (text : List Char) (ms me sb sa : Nat) : List Char × Nat × Nat :=
  let sentences := (sentBounds text).take 500
  let cur := (sentences.findIdx? (fun se => ms < se.1)).getD sentences.length
  let startIdx := cur - sb
  let endIdx := min sentences.length (cur + sa + 1)
  let start := if startIdx = 0 then 0
    else ((sentences.get? (startIdx - 1)).map (fun se => se.2)).getD 0
  let e := if sentences.length ≤ endIdx then text.length
    else ((sentences.get? (endIdx - 1)).map (fun se => se.2)).getD text.length
  let e := min text.length e
  let ctx := stripList (pySliceNat text start e)
  let p := cscTrunc ctx start ms me
  finishClamp p.1 p.2 ms me

/-- `create_sentence_context` from `utils/helpers.py`.  `ms`/`me` are the
match offsets (nonnegative, so the `match_start < 0` guard of the source
cannot fire in the model). -/
def createSentenceContext (text : List Char) (ms me sb sa : Nat) :
    List Char × Nat × Nat :=
  if text = [] ∨ text.length < me then cscFallback text ms me
  else if 50000 < text.length then cscLong text ms me
  else cscSent text ms me sb sa

/-- A per-occurrence search result (`SearchResult` in `searchers/base.py`). -/
structure SearchResult where
  filePath : String
  fileName : String
  pageNumber : Nat
  context : List Char
  matchStart : Nat
  matchEnd : Nat
  absolutePosition : Nat
  matchedText : List Char
deriving DecidableEq, Repr, Inhabited

/-- `HybridSearchEngine._search_text`: build the fuzzy pattern from the
keyword and produce one `SearchResult` per regex match.  The
`caseSensitive` flag is accepted and ignored, as in the source (the flags
are always `re.IGNORECASE`). -/
def searchText (filePath : String) (text : List Char) (keyword : List Char)
    (_caseSensitive wholeWord : Bool) : List SearchResult :=
  (findMatches (splitTokens keyword) wholeWord text).map (fun m =>
    let ctx := createSentenceContext text m.1 (m.1 + m.2)
      sentencesBefore sentencesAfter
    { filePath := filePath
      fileName := basename filePath
      pageNumber := m.1 / charsPerPageEstimate + 1
      context := ctx.1
      matchStart := ctx.2.1
      matchEnd := ctx.2.2
      absolutePosition := m.1
      matchedText := (text.drop m.1).take m.2 })

/-- The file metadata that the freshness hashes are derived from
(`st_mtime` modelled as a natural number, e.g. nanoseconds). -/
structure FileMeta where
  mtime : Nat
  size : Nat
deriving DecidableEq, Repr

/-- The observable filesystem: a path either resolves to metadata or does
not exist (`Path.stat` raising / `Path.exists` false). -/
def FS := String → Option FileMeta

/-- `DocumentIndex._compute_file_hash` builds `"path|size|mtime"` and
takes its md5.  The model keeps the hashed data itself; md5 is treated as
injective on these inputs (its purpose in the source), so the hash is the
triple. -/
structure HashVal where
  hpath : String
  hsize : Nat
  hmtime : Nat
deriving DecidableEq, Repr

/-- `_compute_file_hash`: `none` models the empty-string hash returned
for a nonexistent path. -/
def computeFileHash (fs : FS) (p : String) : Option HashVal :=
  (fs p).map (fun m => ⟨p, m.size, m.mtime⟩)

/-- One row of the `document_index` table (`indexed_at` and `metadata`
are not read by any claim and are omitted). -/
structure IndexRecord where
  fileHash : HashVal
  extractedText : List Char
  lastModified : Nat
  fileSize : Nat
  pageCount : Nat
deriving DecidableEq, Repr

/-- The `document_index` table: an association list keyed by the primary
key `file_path`. -/
def Index := List (String × IndexRecord)

/-- `SELECT ... WHERE file_path = ?` on the primary key. -/
def lookupDoc (idx : Index) (p : String) : Option IndexRecord :=
  (idx.find? (fun e => decide (e.1 = p))).map (fun e => e.2)

/-- `DocumentIndex.is_indexed`: the freshness check — true iff the stored
hash for the path equals the hash recomputed from current metadata. -/
def isIndexed (idx : Index) (fs : FS) (p : String) : Bool :=
  match computeFileHash fs p with
  | none => false
  | some h =>
    match lookupDoc idx p with
    | some r => decide (r.fileHash = h)
    | none => false

/-- `DocumentIndex.get_text`. -/
def getTextIdx (idx : Index) (p : String) : Option (List Char) :=
  (lookupDoc idx p).map (fun r => r.extractedText)

/-- `DocumentIndex.add_document` (`INSERT OR REPLACE` keyed by path; the
row position is immaterial for an SQL table, the model replaces at the
end). -/
def addDocument (idx : Index) (fs : FS) (p : String) (text : List Char)
    (pages : Nat) : Index :=
  match fs p with
  | none => idx
  | some m =>
    (idx.eraseP (fun e => decide (e.1 = p))) ++
      [(p, ⟨⟨p, m.size, m.mtime⟩, text, m.mtime, m.size, pages⟩)]

/-- `TextCache._get_file_hash` builds `"path_mtime_size"` and takes its
md5; as for the index, the hash is modelled by the hashed data itself. -/
structure CacheKey where
  cpath : String
  cmtime : Nat
  csize : Nat
deriving DecidableEq, Repr

/-- `TextCache._get_file_hash` (raises on a missing file, hence `Option`). -/
def computeCacheKey (fs : FS) (p : String) : Option CacheKey :=
  (fs p).map (fun m => ⟨p, m.mtime, m.size⟩)

/-- The in-memory `TextCache` state: the `OrderedDict` as a list of
`(key, text, size)` entries, least-recently-used first, plus the running
byte counter and the byte budget.  (Disk persistence writes a copy of
each entry's text; it does not affect the in-memory invariants claimed.) -/
structure CacheState where
  entries : List (CacheKey × List Char × Nat)
  currentSize : Nat
  maxSizeBytes : Nat
deriving DecidableEq, Repr

/-- `TextCache.__init__` (in-memory part). -/
def textCacheInit (maxSizeMb : Nat) : CacheState :=
  ⟨[], 0, maxSizeMb * 1024 * 1024⟩

/-- `len(text.encode('utf-8'))`. -/
def utf8Len (t : List Char) : Nat := (t.map Char.utf8Size).sum

/-- Total size of the live entries. -/
def sumSizes (l : List (CacheKey × List Char × Nat)) : Nat :=
  (l.map (fun e => e.2.2)).sum

/-- `TextCache._ensure_space`: pop least-recently-used entries while
`current_size + needed > max_size_bytes` and the cache is nonempty. -/
def ensureSpace (needed maxB : Nat) :
    List (CacheKey × List Char × Nat) → Nat →
      List (CacheKey × List Char × Nat) × Nat
  | [], cur => ([], cur)
  | e :: rest, cur =>
    if maxB < cur + needed then ensureSpace needed maxB rest (cur - e.2.2)
    else (e :: rest, cur)

/-- The body of `TextCache.put` once the cache key is computed: remove
any previous entry for the key (adjusting the byte counter), evict until
the new entry fits, then append it most-recently-used.  (When the key is
absent, `eraseP` leaves the entries unchanged, matching the source's
conditional `pop`.) -/
def cachePutBody (st : CacheState) (key : CacheKey) (text : List Char) :
    CacheState :=
  let size := utf8Len text
  let ent1 := st.entries.eraseP (fun e => decide (e.1 = key))
  let cur1 :=
    match st.entries.find? (fun e => decide (e.1 = key)) with
    | some e => st.currentSize - e.2.2
    | none => st.currentSize
  let r := ensureSpace size st.maxSizeBytes ent1 cur1
  ⟨r.1 ++ [(key, text, size)], r.2 + size, st.maxSizeBytes⟩

/-- `TextCache.put`.  `none` models the `stat` exception on a missing
file. -/
def cachePut (fs : FS) (st : CacheState) (p : String) (text : List Char) :
    Option CacheState :=
  (computeCacheKey fs p).map (fun key => cachePutBody st key text)

/-- The internal consistency of a cache state: the byte counter is the
sum of the live entries and keys are unique (the `OrderedDict`
guarantees). -/
def CacheInv (st : CacheState) : Prop :=
  st.currentSize = sumSizes st.entries ∧ (st.entries.map (fun e => e.1)).Nodup

/-- `MergedMatch` of `core/result_processor.py`. -/
structure MergedMatch where
  filePath : String
  fileName : String
  pageNumber : Nat
  mergedContext : List Char
  matchPositions : List (Nat × Nat)
  matchCount : Nat
  matchedTexts : List (List Char)
deriving DecidableEq, Repr

/-- The character gap between consecutive matches:
`curr.absolute_position - (prev.absolute_position + len(prev.matched_text))`. -/
def charGap (prev curr : SearchResult) : Int :=
  (curr.absolutePosition : Int) -
    ((prev.absolutePosition : Int) + (prev.matchedText.length : Int))

/-- The gap between two matches in estimated sentences, as computed in
`_merge_page_matches`: from the full text when one is supplied (and
nonempty — Python truthiness), else `char_distance // 100`. -/
def gapSentences (ft : Option (List Char)) (prev curr : SearchResult) : Int :=
  match ft with
  | some t =>
    if t = [] then Int.fdiv (charGap prev curr) 100
    else (countSentencesBetween t
      (prev.absolutePosition + prev.matchedText.length)
      curr.absolutePosition : Nat)
  | none => Int.fdiv (charGap prev curr) 100

/-- The merge condition `sentence_gap <= self.max_sentence_gap`. -/
def closeEnough (g : Nat) (ft : Option (List Char))
    (prev curr : SearchResult) : Bool :=
  decide (gapSentences ft prev curr ≤ (g : Int))

/-- `_build_merged_context_from_contexts`: concatenate the members'
contexts with single-space separators and re-base each member's offsets
into the concatenation.  `cur` is `current_pos`, `first` marks `i = 0`. -/
def bfcGo : List SearchResult → Bool → Nat →
    List Char × List (Nat × Nat)
  | [], _, _ => ([], [])
  | m :: rest, first, cur =>
    let sep : List Char := if first then [] else [' ']
    let cur1 := cur + sep.length
    let r := bfcGo rest false (cur1 + m.context.length)
    (sep ++ m.context ++ r.1,
      (cur1 + m.matchStart, cur1 + m.matchEnd) :: r.2)

/-- `_build_merged_context_from_full_text`. -/
def buildFromFullText (group : List SearchResult) (t : List Char) :
    List Char × List (Nat × Nat) :=
  match group with
  | [] => ([], [])
  | first :: _ =>
    let last := group.getLastD first
    let startPos := first.absolutePosition - 200
    let endPos := min t.length
      (last.absolutePosition + last.matchedText.length + 200)
    let ctx := stripList (pySliceNat t startPos endPos)
    let positions := group.filterMap (fun m =>
      let rs : Int := (m.absolutePosition : Int) - (startPos : Int)
      if 0 ≤ rs ∧ rs < (ctx.length : Int) then
        some (rs.toNat, rs.toNat + m.matchedText.length)
      else none)
    (ctx, positions)

/-- `_create_merged_match`.  The group is nonempty at every call site;
the `[]` case returns a dummy value. -/
def createMergedMatch (ft : Option (List Char)) (group : List SearchResult) :
    MergedMatch :=
  match group with
  | [] => ⟨"", "", 0, [], [], 0, []⟩
  | [m] =>
    ⟨m.filePath, m.fileName, m.pageNumber, m.context,
      [(m.matchStart, m.matchEnd)], 1, [m.matchedText]⟩
  | m :: _ :: _ =>
    let useFT :=
      match ft with
      | some t =>
        if t ≠ [] ∧ group.all (fun x => decide (x.absolutePosition ≠ 0))
        then some t else none
      | none => none
    let built :=
      match useFT with
      | some t => buildFromFullText group t
      | none => bfcGo group true 0
    ⟨m.filePath, m.fileName, m.pageNumber, built.1, built.2,
      group.length, group.map (fun x => x.matchedText)⟩

/-- The pairwise grouping walk of `_merge_page_matches`: `prev` is
`matches[i-1]`, `curRev` the current group in reverse. -/
def clusterGo (close : SearchResult → SearchResult → Bool)
    (prev : SearchResult) (curRev : List SearchResult) :
    List SearchResult → List (List SearchResult)
  | [] => [curRev.reverse]
  | c :: rest =>
    if close prev c then clusterGo close c (c :: curRev) rest
    else curRev.reverse :: clusterGo close c [c] rest

/-- `ResultProcessor._merge_page_matches` (the source's single-match
shortcut passes no full text to `_create_merged_match`). -/
def mergePageMatches (g : Nat) (ft : Option (List Char))
    (page : List SearchResult) : List MergedMatch :=
  match page with
  | [] => []
  | [m] => [createMergedMatch none [m]]
  | m :: rest =>
    (clusterGo (closeEnough g ft) m [m] rest).map (createMergedMatch ft)

/-- The threshold below which a character gap keeps two matches in one
merge group: `char_distance // 100 <= g` iff `char_distance < 100*(g+1)`. -/
def mergeThreshold (g : Nat) : Int := 100 * ((g : Int) + 1)

/-- Number of breaks the character-distance walk makes after `prev`. -/
def clusterBreaks (g : Nat) (prev : SearchResult) :
    List SearchResult → Nat
  | [] => 0
  | c :: rest =>
    (if charGap prev c < mergeThreshold g then 0 else 1) +
      clusterBreaks g c rest

/-- The number of distance-separated clusters of a match list: one more
than the number of adjacent pairs separated by at least the threshold. -/
def clusterCount (g : Nat) : List SearchResult → Nat
  | [] => 0
  | m :: rest => 1 + clusterBreaks g m rest

/-- Outcome of asking the extraction layer about one file: a successful
`(text, page_count)`; an exception inside the per-file extractor (caught
by `extract_single_file_safe`); or an exception surfacing from
`future.result` (timeout/cancellation, caught by `extract_batch`). -/
inductive ExOutcome where
  | ok (text : List Char) (pages : Nat)
  | exn
  | futureExn
deriving DecidableEq, Repr

/-- `extract_single_file_safe`: never raises; any failure (missing file,
unsupported extension, extractor exception) becomes `(path, "", 0)`. -/
def extractSingleFileSafe (ex : String → ExOutcome) (f : String) :
    String × List Char × Nat :=
  match ex f with
  | .ok t pg => (f, t, pg)
  | _ => (f, [], 0)

/-- `MultiProcessExtractor.extract_batch`: one completion per file (the
nondeterministic `as_completed` order is modelled as submission order —
an admissible schedule); files with empty text contribute no result;
every file, including failures, advances `completed` and fires the
progress callback (modelled as the returned trace of
`(completed, total, name)` events). -/
def ebGo (ex : String → ExOutcome) (total : Nat) :
    List String → Nat →
      List (String × List Char × Nat) × List (Nat × Nat × String)
  | [], _ => ([], [])
  | f :: rest, completed =>
    let add :=
      match ex f with
      | .futureExn => []
      | _ =>
        let r3 := extractSingleFileSafe ex f
        if r3.2.1 ≠ [] then [(f, r3.2.1, r3.2.2)] else []
    let c1 := completed + 1
    let r := ebGo ex total rest c1
    (add ++ r.1, (c1, total, basename f) :: r.2)

/-- `extract_batch` over a list of paths. -/
def extractBatchModel (ex : String → ExOutcome) (paths : List String) :
    List (String × List Char × Nat) × List (Nat × Nat × String) :=
  ebGo ex paths.length paths 0

/-- The observable output of one engine search: the result map (as an
ordered association list), the list of files handed to the extractor,
and the sequence of progress-callback invocations. -/
structure EngineOut where
  results : List (String × List SearchResult)
  extracted : List String
  trace : List (Nat × Nat × String)
deriving DecidableEq, Repr

/-- The contribution of one file with available text to the result map:
`if text: ... if file_results: results[path] = file_results` (an empty
text or an empty result list contributes nothing). -/
def fileResults (f : String) (t : List Char) (kw : List Char)
    (cs ww : Bool) : List (String × List SearchResult) :=
  if t = [] then []
  else
    let fr := searchText f t kw cs ww
    if fr = [] then [] else [(f, fr)]

/-- The body of the `_search_indexed_only` loop. -/
def sioGo (idx : Index) (fs : FS) (kw : List Char) (cs ww : Bool)
    (total : Nat) : List String → Nat →
      List (String × List SearchResult) × List (Nat × Nat × String)
  | [], _ => ([], [])
  | f :: rest, processed =>
    let rs :=
      if isIndexed idx fs f then
        match getTextIdx idx f with
        | some t => fileResults f t kw cs ww
        | none => []
      else []
    let p1 := processed + 1
    let r := sioGo idx fs kw cs ww total rest p1
    (rs ++ r.1, (p1, total, basename f) :: r.2)

/-- `HybridSearchEngine._search_indexed_only`: only files that are
present and fresh in the index are searched; nothing is extracted. -/
def searchIndexedOnly (index : Option Index) (fs : FS) (files : List String)
    (kw : List Char) (cs ww : Bool) : EngineOut :=
  match index with
  | none => ⟨[], [], []⟩
  | some idx =>
    let r := sioGo idx fs kw cs ww files.length files 0
    ⟨r.1, [], r.2⟩

/-- Phase 1 of `_search_hybrid`: search the already-indexed files from
the index text. -/
def hybridPhase1 (idx : Index) (kw : List Char) (cs ww : Bool)
    (total : Nat) : List String → Nat →
      List (String × List SearchResult) × List (Nat × Nat × String)
  | [], _ => ([], [])
  | f :: rest, processed =>
    let rs :=
      match getTextIdx idx f with
      | some t => fileResults f t kw cs ww
      | none => []
    let p1 := processed + 1
    let r := hybridPhase1 idx kw cs ww total rest p1
    (rs ++ r.1, (p1, total, basename f) :: r.2)

/-- Phase 2 of `_search_hybrid`: search the freshly extracted texts,
resuming the `processed` counter from phase 1. -/
def hybridPhase2 (kw : List Char) (cs ww : Bool) (total : Nat) :
    List (String × List Char × Nat) → Nat →
      List (String × List SearchResult) × List (Nat × Nat × String)
  | [], _ => ([], [])
  | (f, text, _pages) :: rest, processed =>
    let rs := fileResults f text kw cs ww
    let p1 := processed + 1
    let r := hybridPhase2 kw cs ww total rest p1
    (rs ++ r.1, (p1, total, basename f) :: r.2)

/-- `HybridSearchEngine._search_hybrid` with the stop flag never set:
partition the files by freshness, search indexed files, extract the
rest (the extraction progress callback reports `processed + c`), write
the extracted texts back into the index, then search them (re-counting
`processed` from its phase-1 value).  Returns the observable output and
the updated index. -/
def searchHybrid (index : Option Index) (fs : FS)
    (ex : String → ExOutcome) (files : List String) (kw : List Char)
    (cs ww : Bool) : EngineOut × Option Index :=
  let part :=
    match index with
    | some idx =>
      (files.filter (fun f => isIndexed idx fs f),
        files.filter (fun f => !isIndexed idx fs f))
    | none => ([], files)
  let total := files.length
  let phase1 :=
    match index with
    | some idx => hybridPhase1 idx kw cs ww total part.1 0
    | none => ([], [])
  let processed1 := part.1.length
  let ext := extractBatchModel ex part.2
  let extTrace := ext.2.map (fun e => (processed1 + e.1, total, e.2.2))
  let index2 :=
    match index with
    | some idx =>
      some (ext.1.foldl (fun acc r => addDocument acc fs r.1 r.2.1 r.2.2) idx)
    | none => none
  let phase2 := hybridPhase2 kw cs ww total ext.1 processed1
  (⟨phase1.1 ++ phase2.1, part.2, phase1.2 ++ extTrace ++ phase2.2⟩, index2)

/-! Concrete fixtures used by witnesses and counterexamples. -/

/-- A filesystem with a single file `f` (mtime 5, size 1). -/
def fsOne : FS := fun p => if p = "f" then some ⟨5, 1⟩ else none

/-- A filesystem where no path exists. -/
def fsNone : FS := fun _ => none

/-- A filesystem with `f` at mtime 10, size 1. -/
def fsFresh : FS := fun p => if p = "f" then some ⟨10, 1⟩ else none

/-- The same file after its mtime changed to 11. -/
def fsTouched : FS := fun p => if p = "f" then some ⟨11, 1⟩ else none

/-- An index holding `f` as extracted at mtime 10, size 1. -/
def idxOne : Index := [("f", ⟨⟨"f", 1, 10⟩, ['x'], 10, 1, 1⟩)]

/-- An extractor for which every file succeeds with text `x`. -/
def exAllOk : String → ExOutcome := fun _ => .ok ['x'] 1

end DocSearch

namespace DocSearch

/-- C2: contrary to the claim, `_search_text` with an empty keyword (or a
keyword that normalizes to empty, such as `"-"`) does not return an empty
result list: the compiled pattern is empty and matches the empty string
at every position, so the text `"ab"` yields three results. -/
theorem empty_keyword_matches_everywhere :
    (searchText "f" ['a', 'b'] [] false false).map
        (fun r => (r.absolutePosition, r.matchedText)) =
      [(0, []), (1, []), (2, [])] ∧
    (searchText "f" ['a'] ['-'] false false).length = 2 := by
  decide

/-- C8: in hybrid mode with two files needing extraction, the progress
callback fires with completed values 1, 2 during extraction and then
again with 1, 2 during the search loop over the extracted texts — the
sequence of `completed` values is not monotonically non-decreasing. -/
theorem hybrid_progress_nonmonotone :
    ((searchHybrid none fsNone exAllOk ["a.pdf", "b.pdf"] ['z']
        false false).1.trace.map (fun e => e.1)) = [1, 2, 1, 2] ∧
    ¬ List.Chain' (fun a b => a ≤ b)
      ((searchHybrid none fsNone exAllOk ["a.pdf", "b.pdf"] ['z']
        false false).1.trace.map (fun e => e.1)) := by
  have h : ((searchHybrid none fsNone exAllOk ["a.pdf", "b.pdf"] ['z']
      false false).1.trace.map (fun e => e.1)) = [1, 2, 1, 2] := by decide
  refine ⟨h, ?_⟩
  rw [h]
  intro hc
  rcases hc with _ | ⟨h12, _ | ⟨h21, _⟩⟩
  omega

/-- C1 counterexample: for the keyword `"a_b"` the matcher does not match
the literal keyword — `normalize_keyword` turns the underscore into a
token separator, but the joining pattern `[-\s]*` does not match `_`. -/
theorem fuzzy_matcher_underscore_cex :
    findMatches (splitTokens ['a', '_', 'b']) false ['a', '_', 'b'] = [] ∧
    searchText "f" ['a', '_', 'b'] ['a', '_', 'b'] false false = [] := by
  decide

/-- C3 counterexample: for the text `" ab"` and span [1, 3), the
sentence path strips the leading space from the snippet but derives the
relative offsets from the unstripped start, so slicing the snippet at the
returned offsets gives `"b"`, not the matched text `"ab"`. -/
theorem context_roundtrip_cex :
    pySliceNat (createSentenceContext [' ', 'a', 'b'] 1 3 2 2).1
        (createSentenceContext [' ', 'a', 'b'] 1 3 2 2).2.1
        (createSentenceContext [' ', 'a', 'b'] 1 3 2 2).2.2 ≠
      pySliceNat [' ', 'a', 'b'] 1 3 := by
  decide

/-- C4 counterexample: an entry bigger than the byte budget is stored
anyway — with capacity 0, putting a 1-byte text leaves
`current_size = 1 > 0 = capacity`. -/
theorem cache_oversize_cex :
    (cachePut fsOne (textCacheInit 0) "f" ['a']).map
      (fun s => decide (s.currentSize ≤ s.maxSizeBytes)) = some false := by
  decide

/-- C5: the freshness check is true exactly when a record exists for the
path whose stored hash is the hash of the file's current metadata; and it
turns false as soon as the mtime or size changes, even though the path is
unchanged. -/
theorem is_indexed_fresh_spec (idx : Index) (p : String) :
    (∀ fs : FS, isIndexed idx fs p = true ↔
      ∃ m r, fs p = some m ∧ lookupDoc idx p = some r ∧
        r.fileHash = ⟨p, m.size, m.mtime⟩) ∧
    (∀ (fs fs' : FS) (m m' : FileMeta) (r : IndexRecord),
      fs p = some m → fs' p = some m' → lookupDoc idx p = some r →
      r.fileHash = ⟨p, m.size, m.mtime⟩ →
      m'.mtime ≠ m.mtime ∨ m'.size ≠ m.size →
      isIndexed idx fs' p = false) := by
  constructor
  · intro fs
    unfold isIndexed computeFileHash
    cases hfs : fs p with
    | none => simp [hfs]
    | some m =>
      simp only [hfs, Option.map_some']
      cases hl : lookupDoc idx p with
      | none => simp [hl]
      | some r => simp [hl]
  · intro fs fs' m m' r _hfs hfs' hl hh hne
    unfold isIndexed computeFileHash
    simp only [hfs', Option.map_some', hl]
    simp only [hh, HashVal.mk.injEq, decide_eq_false_iff_not]
    intro hcon
    rcases hne with h | h
    · exact h hcon.2.2.symm
    · exact h hcon.2.1.symm

/-- Witness for the C5 theorem at a concrete index and filesystem: the
file `f` is fresh under mtime 10 and stale after touching it to 11. -/
theorem is_indexed_fresh_spec_witness : isIndexed idxOne fsTouched "f" = false :=
  (is_indexed_fresh_spec idxOne "f").2 fsFresh fsTouched ⟨10, 1⟩ ⟨11, 1⟩
    ⟨⟨"f", 1, 10⟩, ['x'], 10, 1, 1⟩ (by decide) (by decide) (by decide)
    (by decide) (Or.inl (by decide))

/-- The character-distance merge test of `_merge_page_matches` holds
exactly when the gap is below `100 * (max_gap + 1)` characters. -/
theorem closeEnough_none_iff (g : Nat) (p c : SearchResult) :
    closeEnough g none p c = true ↔ charGap p c < mergeThreshold g := by
  unfold closeEnough gapSentences mergeThreshold
  simp only [decide_eq_true_iff]
  rw [Int.fdiv_eq_ediv _ (by norm_num)]
  omega

/-- The grouping walk produces one more group than the number of
adjacent breaks. -/
theorem clusterGo_len (g : Nat) :
    ∀ (rest : List SearchResult) (prev : SearchResult)
      (curRev : List SearchResult),
      (clusterGo (closeEnough g none) prev curRev rest).length =
        1 + clusterBreaks g prev rest := by
  intro rest
  induction rest with
  | nil => intro prev curRev; rfl
  | cons c rest ih =>
    intro prev curRev
    unfold clusterGo clusterBreaks
    by_cases h : closeEnough g none prev c = true
    · rw [if_pos (by simpa using h),
        if_pos ((closeEnough_none_iff g prev c).mp h), ih]
      omega
    · rw [if_neg (by simpa using h),
        if_neg (fun hlt => h ((closeEnough_none_iff g prev c).mpr hlt))]
      simp only [List.length_cons, ih]
      omega

/-- C6: the result processor computes the inter-match gap as
`next.absolute_position - (prev.absolute_position + len(prev.matched_text))`,
keeps an adjacent pair in one merge group iff that gap is below the
configured threshold (`100 * (MAX_SENTENCES_TO_MERGE + 1)` characters),
and hence emits exactly one merged match per distance-separated cluster. -/
theorem merge_groups_clusters (g : Nat) (p c : SearchResult)
    (page : List SearchResult) :
    (closeEnough g none p c = true ↔ charGap p c < mergeThreshold g) ∧
    (mergePageMatches g none page).length = clusterCount g page := by
  refine ⟨closeEnough_none_iff g p c, ?_⟩
  match page with
  | [] => rfl
  | [m] => rfl
  | m :: m2 :: rest =>
    show ((clusterGo (closeEnough g none) m [m] (m2 :: rest)).map
      (createMergedMatch none)).length = _
    rw [List.length_map, clusterGo_len g (m2 :: rest) m [m]]
    rfl

/-- The extraction batch: the progress trace counts every file once, in
order, and the result map only ever contains files whose extraction
succeeded with nonempty text. -/
theorem ebGo_spec (ex : String → ExOutcome) (total : Nat) :
    ∀ (files : List String) (c0 : Nat),
      ((ebGo ex total files c0).2.map (fun e => e.1) =
        List.range' (c0 + 1) files.length) ∧
      ((ebGo ex total files c0).2.map (fun e => e.2.2) =
        files.map basename) ∧
      (∀ r ∈ (ebGo ex total files c0).1,
        ∃ t pg, ex r.1 = ExOutcome.ok t pg ∧ t ≠ [] ∧ r.2.1 = t) := by
  intro files
  induction files with
  | nil =>
    intro c0
    exact ⟨rfl, rfl, by intro r hr; simp [ebGo] at hr⟩
  | cons f rest ih =>
    intro c0
    obtain ⟨ih1, ih2, ih3⟩ := ih (c0 + 1)
    refine ⟨?_, ?_, ?_⟩
    · simpa [ebGo, List.range'] using ih1
    · simpa [ebGo] using ih2
    · intro r hr
      simp only [ebGo, List.mem_append] at hr
      rcases hr with hr | hr
      · cases hex : ex f with
        | ok t pg =>
          simp only [hex, extractSingleFileSafe] at hr
          by_cases ht : t = []
          · simp [ht] at hr
          · simp [ht] at hr
            subst hr
            exact ⟨t, pg, hex, ht, rfl⟩
        | exn => simp [hex, extractSingleFileSafe] at hr
        | futureExn => simp [hex] at hr
      · exact ih3 r hr

/-- C9: a file whose extraction raises (inside the extractor or from the
worker future) contributes no entry to the result map, is still counted
toward progress (the trace has exactly one entry per file, with
`completed` running 1..n over all files), and does not abort the batch. -/
theorem extract_batch_failure_isolation (ex : String → ExOutcome)
    (files : List String) :
    (extractBatchModel ex files).2.length = files.length ∧
    ((extractBatchModel ex files).2.map (fun e => e.1) =
      List.range' 1 files.length) ∧
    ((extractBatchModel ex files).2.map (fun e => e.2.2) =
      files.map basename) ∧
    ∀ r ∈ (extractBatchModel ex files).1,
      ∃ t pg, ex r.1 = ExOutcome.ok t pg ∧ t ≠ [] := by
  obtain ⟨h1, h2, h3⟩ := ebGo_spec ex files.length files 0
  refine ⟨?_, h1, h2, ?_⟩
  · have := congrArg List.length h1
    simpa using this
  · intro r hr
    obtain ⟨t, pg, hex, ht, _⟩ := h3 r hr
    exact ⟨t, pg, hex, ht⟩

/-- A per-file contribution names only that file. -/
theorem fileResults_mem (f : String) (t kw : List Char) (cs ww : Bool)
    (pr : String × List SearchResult) (hpr : pr ∈ fileResults f t kw cs ww) :
    pr.1 = f := by
  unfold fileResults at hpr
  split at hpr
  · simp at hpr
  · by_cases hfr : searchText f t kw cs ww = []
    · simp [hfr] at hpr
    · simp [hfr] at hpr
      rw [hpr]

/-- Every result of the `indexed_only` loop comes from a file of the
input list that is present and fresh in the index. -/
theorem sioGo_results (idx : Index) (fs : FS) (kw : List Char)
    (cs ww : Bool) (total : Nat) :
    ∀ (files : List String) (p0 : Nat) (pr : String × List SearchResult),
      pr ∈ (sioGo idx fs kw cs ww total files p0).1 →
      pr.1 ∈ files ∧ isIndexed idx fs pr.1 = true := by
  intro files
  induction files with
  | nil => intro p0 pr hpr; simp [sioGo] at hpr
  | cons f rest ih =>
    intro p0 pr hpr
    simp only [sioGo, List.mem_append] at hpr
    rcases hpr with hpr | hpr
    · have hf : pr.1 = f ∧ isIndexed idx fs f = true := by
        split at hpr
        · rename_i hidx
          split at hpr
          · exact ⟨fileResults_mem _ _ _ _ _ _ hpr, by simpa using hidx⟩
          · simp at hpr
        · simp at hpr
      exact ⟨by simp [hf.1], by rw [hf.1]; exact hf.2⟩
    · obtain ⟨hm, hi⟩ := ih (p0 + 1) pr hpr
      exact ⟨by simp [hm], hi⟩

/-- C7: in `indexed_only` mode no file is ever handed to the extractor
(the extracted list is empty for every input), and every file appearing
in the results is one of the input files that is present and fresh in
the index; files needing extraction are silently skipped. -/
theorem indexed_only_no_extraction (index : Option Index) (fs : FS)
    (files : List String) (kw : List Char) (cs ww : Bool) :
    (searchIndexedOnly index fs files kw cs ww).extracted = [] ∧
    ∀ pr ∈ (searchIndexedOnly index fs files kw cs ww).results,
      pr.1 ∈ files ∧
        ∃ idx, index = some idx ∧ isIndexed idx fs pr.1 = true := by
  cases index with
  | none => exact ⟨rfl, by intro pr hpr; simp [searchIndexedOnly] at hpr⟩
  | some idx =>
    refine ⟨rfl, ?_⟩
    intro pr hpr
    have hpr' : pr ∈ (sioGo idx fs kw cs ww files.length files 0).1 := hpr
    obtain ⟨hm, hi⟩ := sioGo_results idx fs kw cs ww files.length files 0 pr hpr'
    exact ⟨hm, idx, rfl, hi⟩

theorem sumSizes_cons (e : CacheKey × List Char × Nat)
    (l : List (CacheKey × List Char × Nat)) :
    sumSizes (e :: l) = e.2.2 + sumSizes l := by
  simp [sumSizes]

theorem sumSizes_append (l1 l2 : List (CacheKey × List Char × Nat)) :
    sumSizes (l1 ++ l2) = sumSizes l1 + sumSizes l2 := by
  simp [sumSizes]

theorem size_le_sumSizes (x : CacheKey × List Char × Nat) :
    ∀ l : List (CacheKey × List Char × Nat), x ∈ l → x.2.2 ≤ sumSizes l := by
  intro l
  induction l with
  | nil => intro h; simp at h
  | cons e rest ih =>
    intro h
    rw [sumSizes_cons]
    rcases List.mem_cons.mp h with h | h
    · subst h; omega
    · have := ih h; omega

/-- The eviction loop drops a minimal prefix of least-recently-used
entries: the kept suffix fits together with the new entry (or the cache
was emptied), and one fewer eviction would not have fit. -/
theorem ensureSpace_spec (needed maxB : Nat) :
    ∀ l : List (CacheKey × List Char × Nat),
      ∃ k, k ≤ l.length ∧
        ensureSpace needed maxB l (sumSizes l) = (l.drop k, sumSizes (l.drop k)) ∧
        (l.drop k = [] ∨ sumSizes (l.drop k) + needed ≤ maxB) ∧
        (k = 0 ∨ maxB < sumSizes (l.drop (k - 1)) + needed) := by
  intro l
  induction l with
  | nil => exact ⟨0, by omega, rfl, Or.inl rfl, Or.inl rfl⟩
  | cons e rest ih =>
    by_cases hc : maxB < sumSizes (e :: rest) + needed
    · obtain ⟨k, hk, heq, hfit, hmin⟩ := ih
      refine ⟨k + 1, by simp; omega, ?_, ?_, ?_⟩
      · show (if maxB < sumSizes (e :: rest) + needed then _ else _) = _
        rw [if_pos hc]
        have hsub : sumSizes (e :: rest) - e.2.2 = sumSizes rest := by
          rw [sumSizes_cons]; omega
        rw [hsub]
        exact heq
      · simpa using hfit
      · refine Or.inr ?_
        rw [show k + 1 - 1 = k from by omega]
        rcases hmin with h0 | hlt
        · subst h0; simpa using hc
        · cases k with
          | zero =>
            simp only [Nat.zero_sub, List.drop_zero] at hlt
            simp only [List.drop_zero]
            rw [sumSizes_cons]
            omega
          | succ k' => simpa using hlt
    · refine ⟨0, by omega, ?_, Or.inr (by simp only [List.drop_zero]; omega),
        Or.inl rfl⟩
      show (if maxB < sumSizes (e :: rest) + needed then _ else _) = _
      rw [if_neg hc]
      simp

/-- Popping the keyed entry adjusts the byte counter to the sum of the
remaining entries. -/
theorem find_eraseP_sum (key : CacheKey) :
    ∀ l : List (CacheKey × List Char × Nat),
      (l.map (fun e => e.1)).Nodup →
      (match l.find? (fun e => decide (e.1 = key)) with
       | some e => sumSizes l - e.2.2
       | none => sumSizes l) =
        sumSizes (l.eraseP (fun e => decide (e.1 = key))) := by
  intro l
  induction l with
  | nil => intro _; rfl
  | cons e rest ih =>
    intro hnd
    have hndr : (rest.map (fun e => e.1)).Nodup :=
      (List.nodup_cons.mp hnd).2
    by_cases he : e.1 = key
    · rw [List.find?_cons_of_pos _ (by simpa using he),
        List.eraseP_cons_of_pos (by simpa using he)]
      show sumSizes (e :: rest) - e.2.2 = sumSizes rest
      rw [sumSizes_cons]
      omega
    · rw [List.find?_cons_of_neg _ (by simpa using he),
        List.eraseP_cons_of_neg (by simpa using he)]
      have ihr := ih hndr
      cases hf : rest.find? (fun e => decide (e.1 = key)) with
      | none =>
        rw [hf] at ihr
        dsimp only at ihr
        show sumSizes (e :: rest) =
          sumSizes (e :: rest.eraseP (fun e => decide (e.1 = key)))
        rw [sumSizes_cons, sumSizes_cons, ihr]
      | some e' =>
        rw [hf] at ihr
        dsimp only at ihr
        have hmem := List.mem_of_find?_eq_some hf
        have hle := size_le_sumSizes e' rest hmem
        show sumSizes (e :: rest) - e'.2.2 =
          sumSizes (e :: rest.eraseP (fun e => decide (e.1 = key)))
        rw [sumSizes_cons, sumSizes_cons, Nat.add_sub_assoc hle, ihr]

/-- After erasing the keyed entry from a key-nodup cache, the key is
gone. -/
theorem eraseP_key_not_mem (key : CacheKey) :
    ∀ l : List (CacheKey × List Char × Nat),
      (l.map (fun e => e.1)).Nodup →
      key ∉ (l.eraseP (fun e => decide (e.1 = key))).map (fun e => e.1) := by
  intro l
  induction l with
  | nil => intro _; simp
  | cons e rest ih =>
    intro hnd
    obtain ⟨hhead, hndr⟩ := List.nodup_cons.mp hnd
    by_cases he : e.1 = key
    · rw [List.eraseP_cons_of_pos (by simpa using he)]
      intro hmem
      apply hhead
      show e.1 ∈ rest.map (fun e => e.1)
      rw [he]
      exact hmem
    · rw [List.eraseP_cons_of_neg (by simpa using he)]
      simp only [List.map_cons, List.mem_cons, not_or]
      exact ⟨fun h => he h.symm, ih hndr⟩

/-- C4 (amended): one `put` step from a consistent cache state keeps the
byte counter equal to the sum of the live entry sizes and the keys
unique; respects the byte budget whenever the new text itself fits; and
is strictly LRU — the new entries are a suffix of the old recency order
(with the re-put key removed) followed by the new entry, evicted
minimally from the least-recently-used end. -/
theorem cache_put_lru_invariant (fs : FS) (st : CacheState) (p : String)
    (t : List Char) (st' : CacheState) (hInv : CacheInv st)
    (hput : cachePut fs st p t = some st') :
    CacheInv st' ∧ st'.maxSizeBytes = st.maxSizeBytes ∧
    (utf8Len t ≤ st.maxSizeBytes → st'.currentSize ≤ st.maxSizeBytes) ∧
    ∀ key, computeCacheKey fs p = some key →
      ∃ k, st'.entries =
          (st.entries.eraseP (fun e => decide (e.1 = key))).drop k ++
            [(key, t, utf8Len t)] ∧
        (k = 0 ∨ st.maxSizeBytes <
          sumSizes ((st.entries.eraseP
            (fun e => decide (e.1 = key))).drop (k - 1)) + utf8Len t) := by
  cases hk : computeCacheKey fs p with
  | none => rw [cachePut, hk] at hput; simp at hput
  | some key =>
    rw [cachePut, hk, Option.map_some', Option.some.injEq] at hput
    obtain ⟨hcur, hnd⟩ := hInv
    have hcur1 :
        (match st.entries.find? (fun e => decide (e.1 = key)) with
         | some e => st.currentSize - e.2.2
         | none => st.currentSize) =
          sumSizes (st.entries.eraseP (fun e => decide (e.1 = key))) := by
      rw [hcur]
      exact find_eraseP_sum key st.entries hnd
    obtain ⟨k, hkle, heq, hfit, hmin⟩ :=
      ensureSpace_spec (utf8Len t) st.maxSizeBytes
        (st.entries.eraseP (fun e => decide (e.1 = key)))
    have hent : (cachePutBody st key t).entries =
        (ensureSpace (utf8Len t) st.maxSizeBytes
          (st.entries.eraseP (fun e => decide (e.1 = key)))
          (match st.entries.find? (fun e => decide (e.1 = key)) with
           | some e => st.currentSize - e.2.2
           | none => st.currentSize)).1 ++ [(key, t, utf8Len t)] := rfl
    have hcsz : (cachePutBody st key t).currentSize =
        (ensureSpace (utf8Len t) st.maxSizeBytes
          (st.entries.eraseP (fun e => decide (e.1 = key)))
          (match st.entries.find? (fun e => decide (e.1 = key)) with
           | some e => st.currentSize - e.2.2
           | none => st.currentSize)).2 + utf8Len t := rfl
    have hmax : (cachePutBody st key t).maxSizeBytes = st.maxSizeBytes := rfl
    rw [hcur1, heq] at hent hcsz
    have hbody : st' =
        ⟨(st.entries.eraseP (fun e => decide (e.1 = key))).drop k ++
            [(key, t, utf8Len t)],
          sumSizes ((st.entries.eraseP
            (fun e => decide (e.1 = key))).drop k) + utf8Len t,
          st.maxSizeBytes⟩ := by
      rw [← hput]
      cases hc : cachePutBody st key t
      simp only [hc] at hent hcsz hmax
      simp [hent, hcsz, hmax]
    subst hbody
    have hsub1 : (st.entries.eraseP
        (fun e => decide (e.1 = key))).Sublist st.entries :=
      List.eraseP_sublist st.entries
    have hsub2 : ((st.entries.eraseP
        (fun e => decide (e.1 = key))).drop k).Sublist
          (st.entries.eraseP (fun e => decide (e.1 = key))) :=
      List.drop_sublist k _
    have hnd1 : (((st.entries.eraseP
        (fun e => decide (e.1 = key))).drop k).map (fun e => e.1)).Nodup :=
      (hnd.sublist (hsub1.map (fun e => e.1))).sublist
        (hsub2.map (fun e => e.1))
    have hkey1 : key ∉ ((st.entries.eraseP
        (fun e => decide (e.1 = key))).drop k).map (fun e => e.1) := by
      intro hmem
      exact eraseP_key_not_mem key st.entries hnd
        ((hsub2.map (fun e => e.1)).mem hmem)
    refine ⟨⟨?_, ?_⟩, rfl, ?_, ?_⟩
    · show _ = sumSizes (_ ++ [(key, t, utf8Len t)])
      rw [sumSizes_append, sumSizes_cons]
      simp [sumSizes]
    · simp only [List.map_append, List.map_cons, List.map_nil]
      refine List.Nodup.append hnd1 (by simp) ?_
      intro a ha hb
      simp at hb
      subst hb
      exact hkey1 ha
    · intro hle
      show sumSizes _ + utf8Len t ≤ _
      rcases hfit with hnil | hok
      · rw [hnil]
        simpa [sumSizes] using hle
      · exact hok
    · intro key' hk'
      have hkk := Option.some.inj hk'
      subst hkk
      exact ⟨k, rfl, hmin⟩

/-- Witness for the C4 theorem: putting a 1-byte text into an empty
1 MB cache. -/
theorem cache_put_lru_invariant_witness :
    CacheInv ((cachePut fsOne (textCacheInit 1) "f" ['a']).getD
      (textCacheInit 1)) ∧
    ((cachePut fsOne (textCacheInit 1) "f" ['a']).getD
      (textCacheInit 1)).maxSizeBytes = (textCacheInit 1).maxSizeBytes ∧
    (utf8Len ['a'] ≤ (textCacheInit 1).maxSizeBytes →
      ((cachePut fsOne (textCacheInit 1) "f" ['a']).getD
        (textCacheInit 1)).currentSize ≤ (textCacheInit 1).maxSizeBytes) ∧
    ∀ key, computeCacheKey fsOne "f" = some key →
      ∃ k, ((cachePut fsOne (textCacheInit 1) "f" ['a']).getD
          (textCacheInit 1)).entries =
          ((textCacheInit 1).entries.eraseP
            (fun e => decide (e.1 = key))).drop k ++
            [(key, ['a'], utf8Len ['a'])] ∧
        (k = 0 ∨ (textCacheInit 1).maxSizeBytes <
          sumSizes (((textCacheInit 1).entries.eraseP
            (fun e => decide (e.1 = key))).drop (k - 1)) + utf8Len ['a']) :=
  cache_put_lru_invariant fsOne (textCacheInit 1) "f" ['a'] _
    ⟨rfl, List.nodup_nil⟩ rfl

theorem length_pySliceNat (t : List Char) (a b : Nat) :
    (pySliceNat t a b).length = min b t.length - a := by
  unfold pySliceNat
  rw [List.length_drop, List.length_take]

/-- Composing the character-window slice with the relative offsets
reproduces the absolute slice. -/
theorem pySliceNat_comp (t : List Char) (start e ms me : Nat)
    (h1 : start ≤ ms) (h2 : me ≤ e) (hm : ms ≤ me) :
    pySliceNat (pySliceNat t start e) (ms - start) (me - start) =
      pySliceNat t ms me := by
  unfold pySliceNat
  rw [List.take_drop]
  rw [show start + (me - start) = me from by omega]
  rw [List.take_take]
  rw [show me ⊓ e = me from by omega]
  rw [List.drop_drop]
  rw [show start + (ms - start) = ms from by omega]

theorem finishClamp_valid (ctx : List Char) (start ms me : Nat) :
    (finishClamp ctx start ms me).1 = ctx ∧
    (finishClamp ctx start ms me).2.1 ≤ (finishClamp ctx start ms me).2.2 ∧
    (finishClamp ctx start ms me).2.2 ≤ ctx.length := by
  unfold finishClamp
  refine ⟨rfl, ?_, ?_⟩ <;> dsimp only <;> omega

/-- Both exits of the sentence path return a `finishClamp` value. -/
theorem cscSent_shape (text : List Char) (ms me sb sa : Nat) :
    ∃ ctx start, cscSent text ms me sb sa = finishClamp ctx start ms me :=
  ⟨_, _, rfl⟩

/-- C3 (amended): for nonempty text and a valid span, the returned
relative offsets are always clamped to valid indices of the snippet
(`rel_start ≤ rel_end ≤ len(snippet)`); and in the long-text path
(`len(text) > 50000`, the fixed character window) slicing the snippet at
the offsets reproduces exactly the matched text.  (In the
sentence-boundary path the snippet is `strip()`ped, which can shift it
against the offsets, so the reproduction can fail there — see the
counterexample.) -/
theorem context_offsets_valid (text : List Char) (ms me sb sa : Nat)
    (hne : text ≠ []) (hmsme : ms ≤ me) (hme : me ≤ text.length) :
    (createSentenceContext text ms me sb sa).2.1 ≤
      (createSentenceContext text ms me sb sa).2.2 ∧
    (createSentenceContext text ms me sb sa).2.2 ≤
      (createSentenceContext text ms me sb sa).1.length ∧
    (50000 < text.length →
      pySliceNat (createSentenceContext text ms me sb sa).1
        (createSentenceContext text ms me sb sa).2.1
        (createSentenceContext text ms me sb sa).2.2 =
      pySliceNat text ms me) := by
  have hcond : ¬(text = [] ∨ text.length < me) := by
    push_neg
    exact ⟨hne, hme⟩
  unfold createSentenceContext
  rw [if_neg hcond]
  by_cases hlen : 50000 < text.length
  · rw [if_pos hlen]
    unfold cscLong
    dsimp only
    have hlsl : (pySliceNat text (ms - 300)
        (min text.length (me + 300))).length =
        min text.length (me + 300) - (ms - 300) := by
      rw [length_pySliceNat]
      omega
    refine ⟨by omega, by rw [hlsl]; omega, fun _ => ?_⟩
    exact pySliceNat_comp text (ms - 300) (min text.length (me + 300)) ms me
      (by omega) (by omega) hmsme
  · rw [if_neg hlen]
    obtain ⟨ctx, start, hshape⟩ := cscSent_shape text ms me sb sa
    rw [hshape]
    obtain ⟨hc1, hc2, hc3⟩ := finishClamp_valid ctx start ms me
    exact ⟨hc2, by rw [hc1]; exact hc3, fun h => absurd h hlen⟩

/-- Witness for the C3 theorem on a small concrete text. -/
theorem context_offsets_valid_witness :
    (createSentenceContext ['a', 'b'] 0 1 2 2).2.1 ≤
      (createSentenceContext ['a', 'b'] 0 1 2 2).2.2 ∧
    (createSentenceContext ['a', 'b'] 0 1 2 2).2.2 ≤
      (createSentenceContext ['a', 'b'] 0 1 2 2).1.length ∧
    (50000 < (['a', 'b'] : List Char).length →
      pySliceNat (createSentenceContext ['a', 'b'] 0 1 2 2).1
        (createSentenceContext ['a', 'b'] 0 1 2 2).2.1
        (createSentenceContext ['a', 'b'] 0 1 2 2).2.2 =
      pySliceNat ['a', 'b'] 0 1) :=
  context_offsets_valid ['a', 'b'] 0 1 2 2 (by decide) (by decide) (by decide)

theorem matchLitRest_length (w : List Char) :
    ∀ (t r : List Char), matchLitRest w t = some r →
      t.length = w.length + r.length := by
  induction w with
  | nil =>
    intro t r h
    simp only [matchLitRest, Option.some.injEq] at h
    subst h
    simp
  | cons a ps ih =>
    intro t r h
    cases t with
    | nil => simp [matchLitRest] at h
    | cons b ts =>
      simp only [matchLitRest] at h
      split at h
      · have := ih ts r h
        simp only [List.length_cons]
        omega
      · exact absurd h (by simp)

theorem matchCoreLen_le (ws : List (List Char)) :
    ∀ (t : List Char) (l : Nat), matchCoreLen ws t = some l → l ≤ t.length := by
  induction ws with
  | nil =>
    intro t l h
    simp only [matchCoreLen, Option.some.injEq] at h
    omega
  | cons w ws ih =>
    intro t l h
    simp only [matchCoreLen] at h
    cases hlit : matchLitRest w t with
    | none => rw [hlit] at h; simp at h
    | some r =>
      rw [hlit] at h
      have hlen := matchLitRest_length w t r hlit
      cases ws with
      | nil =>
        simp only [Option.some.injEq] at h
        omega
      | cons w2 ws2 =>
        dsimp only at h
        cases hcore : matchCoreLen (w2 :: ws2)
            (r.drop (sepPrefixLen r)) with
        | none => rw [hcore] at h; simp at h
        | some l2 =>
          rw [hcore] at h
          simp only [Option.some.injEq] at h
          have hl2 := ih _ _ hcore
          have hk : sepPrefixLen r ≤ r.length :=
            (List.takeWhile_sublist _).length_le
          rw [List.length_drop] at hl2
          omega

theorem sufCands_bound (T : List Char) (q c : Nat) (hc : c ∈ sufCands T q) :
    c ≤ (T.drop q).length := by
  unfold sufCands at hc
  rcases List.mem_append.mp hc with hc | hc
  · rcases List.mem_append.mp hc with hc | hc
    · split at hc
      · simp only [List.mem_singleton] at hc
        subst hc
        rename_i hs
        unfold startsWithI at hs
        cases hm : matchLitRest ['e', 's'] (T.drop q) with
        | none => rw [hm] at hs; simp at hs
        | some r =>
          have hlen := matchLitRest_length ['e', 's'] (T.drop q) r hm
          simp only [List.length_cons, List.length_nil] at hlen
          omega
      · simp at hc
    · split at hc
      · simp only [List.mem_singleton] at hc
        subst hc
        rename_i hs
        unfold startsWithI at hs
        cases hm : matchLitRest ['s'] (T.drop q) with
        | none => rw [hm] at hs; simp at hs
        | some r =>
          have hlen := matchLitRest_length ['s'] (T.drop q) r hm
          simp only [List.length_cons, List.length_nil] at hlen
          omega
      · simp at hc
  · simp only [List.mem_singleton] at hc
    subst hc
    omega

theorem tryMatchAt_le (ws : List (List Char)) (ww : Bool) (T : List Char)
    (p l : Nat) (h : tryMatchAt ws ww T p = some l) (hp : p ≤ T.length) :
    p + l ≤ T.length := by
  unfold tryMatchAt at h
  split at h
  · simp at h
  · cases hcore : matchCoreLen ws (T.drop p) with
    | none => rw [hcore] at h; simp at h
    | some core =>
      rw [hcore] at h
      have hcle := matchCoreLen_le ws _ _ hcore
      rw [List.length_drop] at hcle
      cases ws with
      | nil =>
        have hc0 : (some 0 : Option Nat) = some core := by
          rw [← hcore]; rfl
        have hcz := Option.some.inj hc0
        dsimp only at h
        split at h
        · simp at h
        · have hlc := Option.some.inj h
          omega
      | cons w ws2 =>
        dsimp only at h
        cases hsc : sufChoose ww T (p + core) with
        | none => rw [hsc] at h; simp at h
        | some c =>
          rw [hsc] at h
          simp only [Option.map_some', Option.some.injEq] at h
          have hcm : c ∈ sufCands T (p + core) :=
            List.mem_of_find?_eq_some hsc
          have hcb := sufCands_bound T (p + core) c hcm
          rw [List.length_drop] at hcb
          omega

theorem findMatchesGo_bounds (ws : List (List Char)) (ww : Bool)
    (T : List Char) :
    ∀ (fuel p : Nat) (m : Nat × Nat), m ∈ findMatchesGo ws ww T p fuel →
      p ≤ m.1 ∧ m.1 + m.2 ≤ T.length := by
  intro fuel
  induction fuel with
  | zero => intro p m hm; simp [findMatchesGo] at hm
  | succ fuel ih =>
    intro p m hm
    unfold findMatchesGo at hm
    split at hm
    · simp at hm
    · rename_i hp
      have hp' : p ≤ T.length := by omega
      cases htm : tryMatchAt ws ww T p with
      | none =>
        rw [htm] at hm
        have := ih (p + 1) m hm
        exact ⟨by omega, this.2⟩
      | some l =>
        rw [htm] at hm
        dsimp only at hm
        have hle := tryMatchAt_le ws ww T p l htm hp'
        by_cases hl0 : l = 0
        · rw [if_pos hl0] at hm
          rcases List.mem_cons.mp hm with hm | hm
          · subst hm
            exact ⟨le_refl _, by omega⟩
          · have := ih (p + 1) m hm
            exact ⟨by omega, this.2⟩
        · rw [if_neg hl0] at hm
          rcases List.mem_cons.mp hm with hm | hm
          · subst hm
            exact ⟨le_refl _, hle⟩
          · have := ih (p + l) m hm
            exact ⟨by omega, this.2⟩

theorem findMatchesGo_pairwise (ws : List (List Char)) (ww : Bool)
    (T : List Char) :
    ∀ (fuel p : Nat),
      List.Pairwise (fun a b => a.1 < b.1) (findMatchesGo ws ww T p fuel) := by
  intro fuel
  induction fuel with
  | zero => intro p; simp [findMatchesGo]
  | succ fuel ih =>
    intro p
    unfold findMatchesGo
    split
    · simp
    · cases htm : tryMatchAt ws ww T p with
      | none => exact ih (p + 1)
      | some l =>
        dsimp only
        by_cases hl0 : l = 0
        · rw [if_pos hl0]
          refine List.pairwise_cons.mpr ⟨?_, ih (p + 1)⟩
          intro b hb
          have := findMatchesGo_bounds ws ww T fuel (p + 1) b hb
          omega
        · rw [if_neg hl0]
          refine List.pairwise_cons.mpr ⟨?_, ih (p + l)⟩
          intro b hb
          have := findMatchesGo_bounds ws ww T fuel (p + l) b hb
          omega

/-- C10: every `SearchResult` of the per-file search satisfies
`matched_text == text[absolute_position : absolute_position +
len(matched_text)]`, and the result list is sorted in ascending order of
`absolute_position` (in fact strictly: `finditer` matches are disjoint). -/
theorem search_text_slice_sorted (fp : String) (text kw : List Char)
    (cs ww : Bool) :
    (∀ r ∈ searchText fp text kw cs ww,
      r.matchedText = pySliceNat text r.absolutePosition
        (r.absolutePosition + r.matchedText.length)) ∧
    List.Pairwise (fun a b => a.absolutePosition ≤ b.absolutePosition)
      (searchText fp text kw cs ww) := by
  constructor
  · intro r hr
    unfold searchText at hr
    rw [List.mem_map] at hr
    obtain ⟨m, hm, hr⟩ := hr
    have hb := findMatchesGo_bounds (splitTokens kw) ww text
      (text.length + 1) 0 m hm
    subst hr
    dsimp only
    have hlen : ((text.drop m.1).take m.2).length = m.2 := by
      rw [List.length_take, List.length_drop]
      omega
    rw [hlen]
    unfold pySliceNat
    rw [List.drop_take]
    rw [show m.1 + m.2 - m.1 = m.2 from by omega]
  · unfold searchText
    rw [List.pairwise_map]
    have := findMatchesGo_pairwise (splitTokens kw) ww text
      (text.length + 1) 0
    exact this.imp (by intro a b h; dsimp only; omega)

/-- Case folding cannot move a character into or out of the `[-\s]`
class. -/
theorem lowerKey_sep (a b : Char) (h : lowerKey a = lowerKey b)
    (hb : isSepHS b = true) : isSepHS a = true := by
  unfold isSepHS isPyWs at hb ⊢
  unfold lowerKey at h
  simp only [Bool.or_eq_true, beq_iff_eq] at hb ⊢
  split_ifs at h <;> omega

theorem isTokSepB_of_sep (c : Char) (h : isSepHS c = true) :
    isTokSepB c = true := by
  unfold isTokSepB
  rw [h]
  rfl

theorem sep_of_isTokSepB (c : Char) (h : isTokSepB c = true)
    (h95 : c ≠ '_') (h47 : c ≠ '/') : isSepHS c = true := by
  unfold isTokSepB at h
  simp only [Bool.or_eq_true, beq_iff_eq] at h
  rcases h with (h | h) | h
  · exact h
  · exact absurd (Char.eq_of_val_eq (UInt32.ext (by
      show c.toNat = ('_' : Char).toNat
      rw [h]; rfl))) h95
  · exact absurd (Char.eq_of_val_eq (UInt32.ext (by
      show c.toNat = ('/' : Char).toNat
      rw [h]; rfl))) h47

theorem not_sep_of_not_tokSep (c : Char) (h : isTokSepB c = false) :
    isSepHS c = false := by
  by_contra hc
  rw [isTokSepB_of_sep c (by simpa using hc)] at h
  exact absurd h (by simp)

theorem splitTokensF_congr : ∀ (f1 f2 : Nat) (k : List Char),
    k.length < f1 → k.length < f2 → splitTokensF f1 k = splitTokensF f2 k := by
  intro f1
  induction f1 with
  | zero => intro f2 k h1 h2; omega
  | succ f1 ih =>
    intro f2 k h1 h2
    cases f2 with
    | zero => omega
    | succ f2 =>
      cases k with
      | nil => rfl
      | cons c rest =>
        simp only [List.length_cons] at h1 h2
        simp only [splitTokensF]
        by_cases htok : isTokSepB c = true
        · rw [if_pos htok, if_pos htok]
          exact ih f2 rest (by omega) (by omega)
        · rw [if_neg htok, if_neg htok]
          congr 1
          have hdl := (List.dropWhile_sublist
            (p := fun x => !isTokSepB x) (l := rest)).length_le
          exact ih f2 _ (by omega) (by omega)

/-- One-step unfolding of the tokenizer. -/
theorem splitTokens_cons (c : Char) (k : List Char) :
    splitTokens (c :: k) =
      if isTokSepB c then splitTokens k
      else (c :: k.takeWhile (fun x => !isTokSepB x)) ::
        splitTokens (k.dropWhile (fun x => !isTokSepB x)) := by
  show splitTokensF (k.length + 1 + 1) (c :: k) = _
  simp only [splitTokensF]
  by_cases htok : isTokSepB c = true
  · rw [if_pos htok, if_pos htok]
    rfl
  · rw [if_neg htok, if_neg htok]
    congr 1
    have hdl := (List.dropWhile_sublist
      (p := fun x => !isTokSepB x) (l := k)).length_le
    exact splitTokensF_congr (k.length + 1) _ _ (by omega)
      (by omega)

/-- A case-variant of a `_`/`/`-free keyword is a `KV`-variant. -/
theorem kv_of_lowerEq : ∀ (K S : List Char),
    (∀ c ∈ K, c ≠ '_' ∧ c ≠ '/') →
    S.map lowerKey = K.map lowerKey → KV K S := by
  intro K
  induction K with
  | nil =>
    intro S _ h
    rw [List.map_nil, List.map_eq_nil_iff] at h
    subst h
    exact KV.nil
  | cons c k ih =>
    intro S hUS h
    cases S with
    | nil => simp at h
    | cons d s =>
      simp only [List.map_cons, List.cons.injEq] at h
      obtain ⟨hld, hrest⟩ := h
      have hkv := ih s (fun x hx => hUS x (List.mem_cons_of_mem c hx)) hrest
      by_cases htok : isTokSepB c = true
      · have hUSc := hUS c (List.mem_cons_self c k)
        have hsc : isSepHS c = true :=
          sep_of_isTokSepB c htok hUSc.1 hUSc.2
        exact KV.sep hsc (lowerKey_sep d c hld hsc) hkv
      · exact KV.tok (by simpa using htok) hld hkv

/-- Replacing hyphens by spaces yields a `KV`-variant. -/
theorem kv_hyToSpace : ∀ K : List Char,
    (∀ c ∈ K, c ≠ '_' ∧ c ≠ '/') → KV K (hyToSpace K) := by
  intro K
  induction K with
  | nil => intro _; exact KV.nil
  | cons c k ih =>
    intro hUS
    have hkv := ih (fun x hx => hUS x (List.mem_cons_of_mem c hx))
    show KV (c :: k) ((if c = '-' then ' ' else c) :: hyToSpace k)
    by_cases hc : c = '-'
    · subst hc
      rw [if_pos rfl]
      exact KV.sep (by decide) (by decide) hkv
    · rw [if_neg hc]
      by_cases htok : isTokSepB c = true
      · have hUSc := hUS c (List.mem_cons_self c k)
        have hsc : isSepHS c = true :=
          sep_of_isTokSepB c htok hUSc.1 hUSc.2
        exact KV.sep hsc hsc hkv
      · exact KV.tok (by simpa using htok) rfl hkv

/-- Removing hyphens yields a `KV`-variant. -/
theorem kv_rmHyphens : ∀ K : List Char,
    (∀ c ∈ K, c ≠ '_' ∧ c ≠ '/') → KV K (rmHyphens K) := by
  intro K
  induction K with
  | nil => intro _; exact KV.nil
  | cons c k ih =>
    intro hUS
    have hkv := ih (fun x hx => hUS x (List.mem_cons_of_mem c hx))
    by_cases hc : c = '-'
    · subst hc
      show KV ('-' :: k) (List.filter _ ('-' :: k))
      rw [List.filter_cons_of_neg (by decide)]
      exact KV.del hkv
    · show KV (c :: k) (List.filter _ (c :: k))
      rw [List.filter_cons_of_pos (by simpa using hc)]
      by_cases htok : isTokSepB c = true
      · have hUSc := hUS c (List.mem_cons_self c k)
        have hsc : isSepHS c = true :=
          sep_of_isTokSepB c htok hUSc.1 hUSc.2
        exact KV.sep hsc hsc hkv
      · exact KV.tok (by simpa using htok) rfl hkv

/-- Splitting a `KV`-variant along the keyword's first token run: the
variant starts with a case-image of the token run, followed by a variant
of the keyword's remainder. -/
theorem kvSplit : ∀ (k s : List Char), KV k s →
    ∃ W s', s = W ++ s' ∧
      W.map lowerKey = (k.takeWhile (fun x => !isTokSepB x)).map lowerKey ∧
      KV (k.dropWhile (fun x => !isTokSepB x)) s' := by
  intro k s hkv
  induction hkv with
  | nil => exact ⟨[], [], rfl, rfl, KV.nil⟩
  | tok htokc hld hkv0 ih =>
    rename_i c d k0 s0
    obtain ⟨W0, s0', h1, h2, h3⟩ := ih
    refine ⟨d :: W0, s0', by rw [h1]; rfl, ?_, ?_⟩
    · rw [List.takeWhile_cons_of_pos (by simpa using htokc)]
      simp only [List.map_cons, h2, hld]
    · rwa [List.dropWhile_cons_of_pos (by simpa using htokc)]
  | sep hsc hsd hkv0 _ih =>
    rename_i c d k0 s0
    refine ⟨[], d :: s0, rfl, ?_, ?_⟩
    · rw [List.takeWhile_cons_of_neg (by
        simp [isTokSepB_of_sep c hsc])]
    · rw [List.dropWhile_cons_of_neg (by
        simp [isTokSepB_of_sep c hsc])]
      exact KV.sep hsc hsd hkv0
  | del hkv0 _ih =>
    rename_i k0 s0
    refine ⟨[], s0, rfl, ?_, ?_⟩
    · rw [List.takeWhile_cons_of_neg (by decide)]
    · rw [List.dropWhile_cons_of_neg (by decide)]
      exact KV.del hkv0

/-- A case-image of a pattern word is consumed exactly. -/
theorem matchLit_of_lowerEq : ∀ (w W r : List Char),
    W.map lowerKey = w.map lowerKey →
    matchLitRest w (W ++ r) = some r := by
  intro w
  induction w with
  | nil =>
    intro W r h
    rw [List.map_nil, List.map_eq_nil_iff] at h
    subst h
    rfl
  | cons a ps ih =>
    intro W r h
    cases W with
    | nil => simp at h
    | cons d W' =>
      simp only [List.map_cons, List.cons.injEq] at h
      obtain ⟨hld, hrest⟩ := h
      show matchLitRest (a :: ps) (d :: (W' ++ r)) = some r
      unfold matchLitRest
      rw [if_pos (by unfold chEq; simp [hld])]
      exact ih W' r hrest

/-- The greedy `[-\s]*` joiner consumes exactly a separator run that is
followed by a non-separator character. -/
theorem sepPrefixLen_exact (pre : List Char)
    (hpre : ∀ c ∈ pre, isSepHS c = true) (d : Char)
    (hd : isSepHS d = false) (x : List Char) :
    sepPrefixLen (pre ++ d :: x) = pre.length ∧
    (pre ++ d :: x).drop pre.length = d :: x := by
  constructor
  · unfold sepPrefixLen
    have : (pre ++ d :: x).takeWhile isSepHS = pre := by
      induction pre with
      | nil => simpa [List.takeWhile_cons] using hd
      | cons e pr ih =>
        rw [List.cons_append,
          List.takeWhile_cons_of_pos (hpre e (List.mem_cons_self e pr))]
        rw [ih (fun c hc => hpre c (List.mem_cons_of_mem e hc))]
    rw [this]
  · exact List.drop_left pre (d :: x)

theorem matchCoreLen_single (w t r : List Char)
    (h : matchLitRest w t = some r) :
    matchCoreLen [w] t = some w.length := by
  unfold matchCoreLen
  rw [h]

theorem matchCoreLen_cons (w w2 : List Char) (ws : List (List Char))
    (t r : List Char) (h : matchLitRest w t = some r) :
    matchCoreLen (w :: w2 :: ws) t =
      match matchCoreLen (w2 :: ws) (r.drop (sepPrefixLen r)) with
      | none => none
      | some l => some (w.length + sepPrefixLen r + l) := by
  conv_lhs => rw [matchCoreLen]
  rw [h]

/-- The core completeness lemma: a `KV`-variant decomposes into a
separator prefix and a tail on which the word core of the fuzzy pattern
matches, whatever follows. -/
theorem coreMatch : ∀ (n : Nat) (K S : List Char), K.length ≤ n → KV K S →
    ∃ pre post, S = pre ++ post ∧ (∀ c ∈ pre, isSepHS c = true) ∧
      ((splitTokens K = [] ∧ post = []) ∨
        (∃ d post2, post = d :: post2 ∧ isSepHS d = false)) ∧
      ∀ rest, (matchCoreLen (splitTokens K) (post ++ rest)).isSome := by
  intro n
  induction n with
  | zero =>
    intro K S hlen hkv
    have hK : K = [] := by
      cases K
      · rfl
      · simp at hlen
    subst hK
    cases hkv
    exact ⟨[], [], rfl, by simp, Or.inl ⟨rfl, rfl⟩,
      fun rest => by simp [matchCoreLen]⟩
  | succ n ih =>
    intro K S hlen hkv
    cases hkv with
    | nil =>
      exact ⟨[], [], rfl, by simp, Or.inl ⟨rfl, rfl⟩,
        fun rest => by simp [matchCoreLen]⟩
    | sep hsc hsd hkv0 =>
      rename_i c d k s
      obtain ⟨pre, post, h1, h2, h3, h4⟩ :=
        ih k s (by simp at hlen; omega) hkv0
      have hsplit : splitTokens (c :: k) = splitTokens k := by
        rw [splitTokens_cons, if_pos (isTokSepB_of_sep c hsc)]
      refine ⟨d :: pre, post, by rw [h1]; rfl, ?_, ?_, ?_⟩
      · intro x hx
        rcases List.mem_cons.mp hx with hx | hx
        · subst hx; exact hsd
        · exact h2 x hx
      · rw [hsplit]; exact h3
      · rw [hsplit]; exact h4
    | del hkv0 =>
      rename_i k
      obtain ⟨pre, post, h1, h2, h3, h4⟩ :=
        ih k _ (by simp at hlen; omega) hkv0
      have hsplit : splitTokens ('-' :: k) = splitTokens k := by
        rw [splitTokens_cons, if_pos (by decide)]
      refine ⟨pre, post, h1, h2, ?_, ?_⟩
      · rw [hsplit]; exact h3
      · rw [hsplit]; exact h4
    | tok htokc hld hkv0 =>
      rename_i c d k s
      obtain ⟨W, s', hs, hWmap, hkv'⟩ := kvSplit k s hkv0
      have hsplit : splitTokens (c :: k) =
          (c :: k.takeWhile (fun x => !isTokSepB x)) ::
            splitTokens (k.dropWhile (fun x => !isTokSepB x)) := by
        rw [splitTokens_cons, if_neg (by simp [htokc])]
      have hdns : isSepHS d = false := by
        by_contra hcon
        have hsc := lowerKey_sep c d hld.symm (by simpa using hcon)
        rw [isTokSepB_of_sep c hsc] at htokc
        exact absurd htokc (by simp)
      have hlit : ∀ x, matchLitRest (c :: k.takeWhile (fun x => !isTokSepB x))
          ((d :: W) ++ x) = some x := by
        intro x
        exact matchLit_of_lowerEq _ (d :: W) x
          (by simp only [List.map_cons, hWmap, hld])
      cases hws : splitTokens (k.dropWhile (fun x => !isTokSepB x)) with
      | nil =>
        refine ⟨[], d :: (W ++ s'), by rw [hs]; rfl, by simp, ?_, ?_⟩
        · exact Or.inr ⟨d, W ++ s', rfl, hdns⟩
        · intro rest
          rw [hsplit, hws]
          have hre : (d :: (W ++ s')) ++ rest = (d :: W) ++ (s' ++ rest) := by
            simp
          rw [hre, matchCoreLen_single _ _ _ (hlit (s' ++ rest))]
          rfl
      | cons w2 ws2 =>
        have hdwlen := (List.dropWhile_sublist
          (p := fun x => !isTokSepB x) (l := k)).length_le
        obtain ⟨pre2, post2, hp1, hp2, hp3, hp4⟩ :=
          ih (k.dropWhile (fun x => !isTokSepB x)) s'
            (by simp at hlen; omega) hkv'
        rcases hp3 with ⟨hnil, _⟩ | ⟨d2, post2', hpost2, hd2⟩
        · rw [hnil] at hws; simp at hws
        · refine ⟨[], d :: (W ++ s'), by rw [hs]; rfl, by simp, ?_, ?_⟩
          · exact Or.inr ⟨d, W ++ s', rfl, hdns⟩
          · intro rest
            rw [hsplit, hws]
            have hre : (d :: (W ++ s')) ++ rest =
                (d :: W) ++ (pre2 ++ (post2 ++ rest)) := by
              rw [hp1]
              simp
            rw [hre,
              matchCoreLen_cons _ _ _ _ _ (hlit (pre2 ++ (post2 ++ rest)))]
            have hsep := sepPrefixLen_exact pre2 hp2 d2 hd2 (post2' ++ rest)
            obtain ⟨l2, hl2⟩ := Option.isSome_iff_exists.mp (hp4 rest)
            rw [hws] at hl2
            rw [show pre2 ++ (post2 ++ rest) = pre2 ++ d2 :: (post2' ++ rest)
              from by rw [hpost2]; simp]
            rw [hsep.1, hsep.2]
            rw [show d2 :: (post2' ++ rest) = post2 ++ rest
              from by rw [hpost2]; simp]
            rw [hl2]
            simp

/-- Without whole-word anchoring the plural suffix can always match
(possibly empty). -/
theorem sufChoose_false_isSome (T : List Char) (q : Nat) :
    (sufChoose false T q).isSome := by
  unfold sufChoose sufCands
  split <;> split <;> simp [List.find?]

/-- Without whole-word anchoring, a successful word core yields a
successful full pattern match. -/
theorem tryMatchAt_false_isSome (ws : List (List Char)) (T : List Char)
    (p : Nat) (h : (matchCoreLen ws (T.drop p)).isSome) :
    (tryMatchAt ws false T p).isSome := by
  unfold tryMatchAt
  rw [if_neg (by simp)]
  obtain ⟨core, hcore⟩ := Option.isSome_iff_exists.mp h
  rw [hcore]
  cases ws with
  | nil =>
    dsimp only
    rw [if_neg (by simp)]
    rfl
  | cons w ws2 =>
    dsimp only
    obtain ⟨c, hc⟩ := Option.isSome_iff_exists.mp
      (sufChoose_false_isSome T (p + core))
    rw [hc]
    rfl

/-- If the pattern matches at any admissible position, the `finditer`
scan returns at least one match. -/
theorem findMatchesGo_ne_nil (ws : List (List Char)) (ww : Bool)
    (T : List Char) :
    ∀ (fuel p q : Nat), p ≤ q → q ≤ T.length →
      (tryMatchAt ws ww T q).isSome → T.length + 1 - p ≤ fuel →
      findMatchesGo ws ww T p fuel ≠ [] := by
  intro fuel
  induction fuel with
  | zero => intro p q h1 h2 _h3 h4; omega
  | succ fuel ih =>
    intro p q h1 h2 h3 h4
    unfold findMatchesGo
    split
    · omega
    · cases htm : tryMatchAt ws ww T p with
      | some l =>
        dsimp only
        split <;> simp
      | none =>
        have hpq : p ≠ q := by
          intro he
          rw [← he, htm] at h3
          simp at h3
        exact ih (p + 1) q (by omega) h2 h3 (by omega)

/-- C1 (amended): for every keyword free of underscores and slashes, the
fuzzy matcher finds a match in any text containing the literal keyword
up to ASCII case, the keyword with hyphens replaced by spaces, the
keyword with hyphens removed, or the keyword with `s`/`es` appended.
(For keywords containing `_` or `/` the literal-match part fails:
normalization splits on those characters but the joining pattern
`[-\s]*` does not match them — see the counterexample.) -/
theorem fuzzy_matcher_variants (K T S : List Char)
    (hUS : ∀ c ∈ K, c ≠ '_' ∧ c ≠ '/')
    (hinf : ∃ u v, T = u ++ S ++ v)
    (hvar : S.map lowerKey = K.map lowerKey ∨ S = hyToSpace K ∨
      S = rmHyphens K ∨ S = K ++ ['s'] ∨ S = K ++ ['e', 's']) :
    findMatches (splitTokens K) false T ≠ [] := by
  have main : ∀ S' : List Char, (∃ u v, T = u ++ S' ++ v) → KV K S' →
      findMatches (splitTokens K) false T ≠ [] := by
    intro S' hinf' hkv
    obtain ⟨u, v, hT⟩ := hinf'
    obtain ⟨pre, post, hS, _hsep, _hhead, hcore⟩ :=
      coreMatch K.length K S' (le_refl _) hkv
    have hdrop : T.drop (u.length + pre.length) = post ++ v := by
      rw [hT, hS]
      rw [show u ++ (pre ++ post) ++ v = (u ++ pre) ++ (post ++ v) from by
        simp]
      rw [← List.length_append u pre]
      exact List.drop_left _ _
    have hsome : (tryMatchAt (splitTokens K) false T
        (u.length + pre.length)).isSome := by
      apply tryMatchAt_false_isSome
      rw [hdrop]
      exact hcore v
    have hple : u.length + pre.length ≤ T.length := by
      rw [hT, hS]
      simp only [List.length_append]
      omega
    unfold findMatches
    exact findMatchesGo_ne_nil (splitTokens K) false T (T.length + 1) 0
      (u.length + pre.length) (Nat.zero_le _) hple hsome (by omega)
  rcases hvar with h | h | h | h | h
  · exact main S hinf (kv_of_lowerEq K S hUS h)
  · subst h
    exact main (hyToSpace K) hinf (kv_hyToSpace K hUS)
  · subst h
    exact main (rmHyphens K) hinf (kv_rmHyphens K hUS)
  · subst h
    obtain ⟨u, v, hT⟩ := hinf
    exact main K ⟨u, 's' :: v, by rw [hT]; simp⟩
      (kv_of_lowerEq K K hUS rfl)
  · subst h
    obtain ⟨u, v, hT⟩ := hinf
    exact main K ⟨u, 'e' :: 's' :: v, by rw [hT]; simp⟩
      (kv_of_lowerEq K K hUS rfl)

/-- Witness for the C1 theorem: the keyword `"a-b"` with hyphens removed
(`"ab"`) is matched inside the text `"xAB!"` (also exercising the
case-insensitive part via the containing text). -/
theorem fuzzy_matcher_variants_witness :
    findMatches (splitTokens ['a', '-', 'b']) false
      ['x', 'a', 'b', '!'] ≠ [] :=
  fuzzy_matcher_variants ['a', '-', 'b'] ['x', 'a', 'b', '!'] ['a', 'b']
    (by decide) ⟨['x'], ['!'], rfl⟩ (Or.inr (Or.inr (Or.inl rfl)))

end DocSearch
